import Mathlib

/-!
Verification development for the feed-system repository.

The development shallowly embeds the fan-out / timeline subsystem:

* `internal/services/activity.go` — activity scoring (`UpdateUserActivity`,
  `getActivityIncrement`);
* the Redis timeline cache service (`AddToTimeline`, `BatchAddToTimeline`,
  `GetTimeline`, `RemoveFromTimeline`, `RebuildTimelineFromDB`), whose backing
  store is a Redis sorted set, modelled here as a list of (score, member)
  entries kept in ascending (score, member) order;
* `internal/services/feed_optimized.go` — the optimized distributor
  (`distributeForInfluencer`, `distributeForRegularUser`,
  `recordDistributionStatus`), embedded both as a state transformer on the
  timeline store and as a trace of primitive write effects in execution order;
* `internal/services/recovery.go` — the recovery scanner
  (`RecoverPendingDistributions`, `recoverSingleDistribution`, `scanKeys`);
* `internal/services/feed.go` and `internal/repository/post.go` — `DeletePost`
  over the database-backed post and timeline stores.

Scores of timeline entries are integers in the source (Unix epochs flowing
through float64 without loss); they are embedded as `Int`.  Activity scores
are float64 in the source; they are embedded as `Rat`, which is exact on every
computation the embedded code paths actually perform (see the doc comments at
the definitions).  TTL bookkeeping (`Expire`) and the Kafka event publications
have no effect on the stores the claims speak about and are not modelled.
-/

namespace FeedSystem

/-- One element of a Redis sorted set: a score and a member string.  In the
timeline cache the member is the post id rendered as a string and the score is
a Unix epoch. -/
structure ZEntry where
  score : Int
  member : String
  deriving DecidableEq, Repr

/-- The strict ordering Redis maintains inside a sorted set: by score, ties
broken by the lexicographic order of the member strings. -/
def ZEntry.keyLt (a b : ZEntry) : Prop :=
  a.score < b.score ∨ (a.score = b.score ∧ a.member < b.member)

instance : DecidableRel ZEntry.keyLt := fun a b => by
  unfold ZEntry.keyLt; infer_instance

/-- A sorted set is well formed when its entries are strictly ascending in the
(score, member) key.  Strict ascent also forces the keys to be pairwise
distinct. -/
def ZSorted (l : List ZEntry) : Prop :=
  l.Pairwise ZEntry.keyLt

instance : DecidablePred ZSorted := fun l => by
  unfold ZSorted; infer_instance

/-- Number of entries of the sorted set carrying a given member. -/
def countMember (l : List ZEntry) (m : String) : Nat :=
  (l.filter (fun e => e.member = m)).length

/-- Full well-formedness of a Redis sorted set: ascending keys and no member
occurring twice. -/
def ZWF (l : List ZEntry) : Prop :=
  ZSorted l ∧ (l.map ZEntry.member).Nodup

instance : DecidablePred ZWF := fun l => by
  unfold ZWF; infer_instance

/-- ZREM: drop every entry with the given member (idempotent delete). -/
def zrem (l : List ZEntry) (m : String) : List ZEntry :=
  l.filter (fun e => e.member ≠ m)

/-- Insertion into the ascending entry list at the position determined by the
(score, member) key. -/
def zinsert (e : ZEntry) : List ZEntry → List ZEntry
  | [] => [e]
  | x :: xs => if ZEntry.keyLt e x then e :: x :: xs else x :: zinsert e xs

/-- ZADD: if the member is already present its score is updated and the entry
moves to the position of the new key, otherwise the entry is inserted. -/
def zadd (l : List ZEntry) (score : Int) (m : String) : List ZEntry :=
  zinsert ⟨score, m⟩ (zrem l m)

/-- ZSCORE-based membership test used by the recovery service
(`checkPostInTimeline`): a member is present when some entry carries it. -/
def zmem (l : List ZEntry) (m : String) : Bool :=
  l.any (fun e => e.member == m)

/-- MaxTimelineSize from the timeline cache service: the per-user cap on the
number of timeline entries. -/
def MaxTimelineSize : Nat := 1000

/-- ZREMRANGEBYRANK key 0 (-MaxTimelineSize-1), the trim performed after every
timeline insert.  Redis resolves the negative stop rank -(n+1) to
card-(n+1); when that is still negative no element is removed, otherwise the
ranks 0 .. card-(n+1) — the card-n lowest keys — are removed.  Both cases are
`List.drop (card - n)` on the ascending entry list (`Nat` subtraction). -/
def ztrim (l : List ZEntry) : List ZEntry :=
  l.drop (l.length - MaxTimelineSize)

/-- ZREVRANGEBYSCORE key (max -inf LIMIT 0 count: the entries with score
strictly below the bound, highest key first, truncated to count. -/
def zrevrangeByScoreLt (l : List ZEntry) (maxExcl : Int) (count : Nat) : List ZEntry :=
  ((l.filter (fun e => e.score < maxExcl)).reverse).take count

/-- AddToTimeline from the timeline cache service.  The sorted-set score is
float64(timestamp.Unix()); the `score` argument (the ranking score of the
post) is accepted and ignored, exactly as in the source.  After the ZADD the
service trims the set to `MaxTimelineSize` and refreshes the TTL (the TTL is
not modelled). -/
def AddToTimeline (tl : List ZEntry) (postID : String) (score : Int)
    (timestampUnix : Int) : List ZEntry :=
  let _ := score
  ztrim (zadd tl timestampUnix postID)

/-- The timeline cache as a whole: each owner id is mapped to the sorted set
behind the key timeline:owner. -/
def TimelineStore : Type := String → List ZEntry

/-- BatchAddToTimeline: one pipeline that, for every owner in the list in
order, performs the same ZADD / trim / TTL-refresh triple as `AddToTimeline`. -/
def BatchAddToTimeline (σ : TimelineStore) (userIDs : List String)
    (postID : String) (score : Int) (timestampUnix : Int) : TimelineStore :=
  userIDs.foldl
    (fun σ u => Function.update σ u (AddToTimeline (σ u) postID score timestampUnix)) σ

/-- RemoveFromTimeline: ZREM of the post id from the owner timeline. -/
def RemoveFromTimeline (tl : List ZEntry) (postID : String) : List ZEntry :=
  zrem tl postID

/-- TimelineItem returned by GetTimeline: the member, the sorted-set score and
the timestamp reconstructed from it (time.Unix(int64(score), 0)). -/
structure TimelineItem where
  postID : String
  score : Int
  timestampUnix : Int
  deriving DecidableEq, Repr

/-- Result triple of GetTimeline: the page, the next cursor rendered as a
string, and the has-more flag. -/
structure GetTimelineResult where
  items : List TimelineItem
  nextCursor : String
  hasMore : Bool
  deriving DecidableEq, Repr

/-- GetTimeline from the timeline cache service.  The cursor argument models
the result of strconv.ParseFloat on the incoming cursor string: `some c` when
the cursor is a non-empty string parsing to the epoch c, `none` when the
cursor is empty or fails to parse, in which case the current Unix time is the
exclusive bound.  The service asks Redis for limit+1 entries below the bound,
flags has-more when more than limit arrived, truncates to limit, and sets the
next cursor to the score of the last returned entry printed without decimals
(scores are integral epochs, so the printing is exact). -/
def GetTimeline (tl : List ZEntry) (cursor : Option Int) (nowUnix : Int)
    (limit : Nat) : GetTimelineResult :=
  let maxScore : Int := cursor.getD nowUnix
  let results := zrevrangeByScoreLt tl maxScore (limit + 1)
  let hasMore := decide (results.length > limit)
  let results := if results.length > limit then results.take limit else results
  let items := results.map (fun e =>
    ({ postID := e.member, score := e.score, timestampUnix := e.score } : TimelineItem))
  let nextCursor := results.foldl (fun _ e => toString e.score) ""
  ⟨items, nextCursor, hasMore⟩

/-- A row of the relational timelines table (models.Timeline), as built by
rebuildTimelineCache: the owner, the referenced post, the ranking score of the
post and the creation time of the post. -/
structure TimelineRow where
  userID : String
  postID : String
  rankScore : Int
  createdAtUnix : Int
  deriving DecidableEq, Repr

/-- RebuildTimelineFromDB: the cache key is deleted and the rows are ZADDed in
order, each with score float64(timeline.CreatedAt.Unix()); no trim is issued
on this path.  An empty row list leaves the key deleted, which coincides with
folding over nothing. -/
def RebuildTimelineFromDB (rows : List TimelineRow) : List ZEntry :=
  rows.foldl (fun acc r => zadd acc r.createdAtUnix r.postID) []

/-- A post as the distributor and the delete path see it. -/
structure Post where
  id : String
  userID : String
  rankScore : Int
  createdAtUnix : Int
  isDeleted : Bool
  deriving DecidableEq, Repr

/-- rebuildTimelineCache (feed_optimized.go): the rows handed to
`RebuildTimelineFromDB` carry Score := post.Score and
CreatedAt := post.CreatedAt for each fetched post. -/
def rebuildRows (userID : String) (posts : List Post) : List TimelineRow :=
  posts.map (fun p =>
    { userID := userID, postID := p.id, rankScore := p.rankScore
      createdAtUnix := p.createdAtUnix })

/-! ## The optimized distributor (feed_optimized.go), timeline effect -/

/-- distributeForInfluencer, restricted to its effect on the timeline store:
the batch write to the active followers happens only when that list is
non-empty; the author timeline is never touched on this path.  The status
write and the Kafka publication have no timeline effect; their ordering is
modelled separately by the effect traces below. -/
def distributeForInfluencer (σ : TimelineStore) (post : Post)
    (activeFollowers : List String) : TimelineStore :=
  if activeFollowers.isEmpty then σ
  else BatchAddToTimeline σ activeFollowers post.id post.rankScore post.createdAtUnix

/-- distributeForRegularUser, effect on the timeline store: the batch write to
all followers (skipped when there are none) followed by the self-write to the
author timeline. -/
def distributeForRegularUser (σ : TimelineStore) (post : Post)
    (authorID : String) (followers : List String) : TimelineStore :=
  let σ1 := if followers.isEmpty then σ
    else BatchAddToTimeline σ followers post.id post.rankScore post.createdAtUnix
  Function.update σ1 authorID
    (AddToTimeline (σ1 authorID) post.id post.rankScore post.createdAtUnix)

/-- distributePostOptimized: influencer mode when the author follower count
exceeds the configured push threshold, regular mode otherwise.  The follower
and active-follower lists are the values the repositories and
GetActiveFollowers return for the author. -/
def distributePostOptimized (σ : TimelineStore) (post : Post)
    (authorID : String) (authorFollowerCount : Int) (pushThreshold : Int)
    (followers : List String) (activeFollowers : List String) : TimelineStore :=
  if authorFollowerCount > pushThreshold then
    distributeForInfluencer σ post activeFollowers
  else
    distributeForRegularUser σ post authorID followers

/-! ## The optimized distributor as a trace of write effects

To settle the temporal claim about the distribution-status ledger the two
distribution routines are also embedded as the sequence of external writes
they issue, in source order. -/

/-- A primitive write effect of the distributor: an insertion of a post into
the timeline of an owner, or a write of the distribution-status record of a
post with the given status string. -/
inductive DistEvent where
  | timelineWrite (owner : String) (postID : String)
  | statusWrite (postID : String) (status : String)
  deriving DecidableEq, Repr

/-- Effect trace of distributeForInfluencer: first the batch timeline write to
the active followers (when any), then `recordDistributionStatus` with the
literal status influencer_push_completed, then the Kafka publication (no store
effect). -/
def distributeForInfluencerTrace (post : Post)
    (activeFollowers : List String) : List DistEvent :=
  (if activeFollowers.isEmpty then []
    else activeFollowers.map (fun f => DistEvent.timelineWrite f post.id))
    ++ [DistEvent.statusWrite post.id "influencer_push_completed"]

/-- Effect trace of distributeForRegularUser: the batch timeline write to all
followers (when any), then the self-write to the author timeline.  No
distribution-status record is written on this path. -/
def distributeForRegularUserTrace (post : Post) (authorID : String)
    (followers : List String) : List DistEvent :=
  (if followers.isEmpty then []
    else followers.map (fun f => DistEvent.timelineWrite f post.id))
    ++ [DistEvent.timelineWrite authorID post.id]

/-- The property claimed of a distribution trace: every timeline write of a
post is preceded by a status write for that post whose status string starts
with started, and any completed-status write comes after all timeline writes
of the post.  Only the precedence half is needed to refute the claim. -/
def startedBeforeWrites (tr : List DistEvent) : Prop :=
  ∀ i : Fin tr.length, ∀ owner postID,
    tr.get i = DistEvent.timelineWrite owner postID →
    ∃ j : Fin tr.length, (j : Nat) < (i : Nat) ∧ ∃ st,
      tr.get j = DistEvent.statusWrite postID st ∧ "started".isPrefixOf st

/-! ## The activity service (activity.go) -/

/-- ActivityDecayFactor from activity.go. -/
def ActivityDecayFactor : ℚ := 9 / 10

/-- MaxActivityScore from activity.go. -/
def MaxActivityScore : ℚ := 1000

/-- getActivityIncrement: the switch on the activity type string. -/
def getActivityIncrement (activityType : String) : ℚ :=
  match activityType with
  | "login" => 5
  | "post" => 15
  | "like" => 2
  | "comment" => 8
  | "share" => 10
  | "view_feed" => 1
  | _ => 1

/-- The slice of models.User that UpdateUserActivity reads and writes. -/
structure AUser where
  id : String
  lastActiveAtUnix : Option Int
  activityScore : ℚ
  isOnline : Bool
  deriving DecidableEq, Repr

/-- math.Pow as called by UpdateUserActivity, on exact rationals.  The only
exponent the embedded path ever produces is 0 (the decay exponent is computed
from a duration that is identically zero, which is the slip under scrutiny),
where the float and the rational function agree exactly; integral exponents
are also given their exact value, and the unreachable non-integral case is
mapped to 0. -/
def mathPowQ (base e : ℚ) : ℚ :=
  if e = 0 then 1
  else if e.den = 1 then base ^ e.num
  else 0

/-- UpdateUserActivity on a user that exists (the source first loads the user
and errors out when absent; the claims concern existing users).  The source
order is kept: the last-active time is overwritten with now and the online
flag is set before the decay for the elapsed interval is computed, so the
elapsed duration is now minus now.  Durations are int64 nanoseconds in Go;
Hours() divides by 3600 seconds, embedded exactly on the epochs. -/
def UpdateUserActivity (u : AUser) (activityType : String) (nowUnix : Int) : AUser :=
  let u1 : AUser := { u with lastActiveAtUnix := some nowUnix, isOnline := true }
  let increment := getActivityIncrement activityType
  let u2 : AUser :=
    match u1.lastActiveAtUnix with
    | some lastActive =>
      let hoursSinceLastActive : ℚ := ((nowUnix - lastActive : Int) : ℚ) / 3600
      let decay := mathPowQ ActivityDecayFactor (hoursSinceLastActive / 24)
      { u1 with activityScore := u1.activityScore * decay + increment }
    | none => { u1 with activityScore := increment }
  if u2.activityScore > MaxActivityScore then
    { u2 with activityScore := MaxActivityScore }
  else u2

/-! ## The recovery service (recovery.go) -/

/-- DistributionStatus as stored under a distribution_status: key (the JSON
marshalling is not modelled; the record is kept structurally). -/
structure DistributionStatus where
  postID : String
  authorID : String
  status : String
  timestamp : Int
  deriving DecidableEq, Repr

/-- The state the recovery service operates on: the status ledger keyed by the
Redis key string, the timeline cache, the post table, the set of existing user
ids, the follower and active-follower views, and the current time. -/
structure RecoveryState where
  ledger : List (String × DistributionStatus)
  timelines : TimelineStore
  posts : List Post
  users : List String
  followersOf : String → List String
  activeFollowersOf : String → List String
  nowUnix : Int

/-- Lookup of a ledger record by key. -/
def ledgerGet (ledger : List (String × DistributionStatus)) (key : String) :
    Option DistributionStatus :=
  (ledger.find? (fun kv => kv.1 = key)).map Prod.snd

/-- Deletion of a ledger record. -/
def ledgerDelete (ledger : List (String × DistributionStatus)) (key : String) :
    List (String × DistributionStatus) :=
  ledger.filter (fun kv => kv.1 ≠ key)

/-- updateDistributionStatus: rewrite the status and timestamp of an existing
record; when the key is absent the source logs the Get error and leaves the
store unchanged. -/
def updateDistributionStatus (ledger : List (String × DistributionStatus))
    (key status : String) (nowUnix : Int) : List (String × DistributionStatus) :=
  ledger.map (fun kv =>
    if kv.1 = key then (kv.1, { kv.2 with status := status, timestamp := nowUnix }) else kv)

/-- PostRepository.GetByID: the first row with the id and is_deleted false,
nil when none. -/
def postGetByID (posts : List Post) (id : String) : Option Post :=
  posts.find? (fun p => p.id = id && !p.isDeleted)

/-- recoverInfluencerDistribution: re-fetch the active followers, keep those
whose timeline does not yet contain the post, batch-insert for them, and
rewrite the record to influencer_push_completed. -/
def recoverInfluencerDistribution (s : RecoveryState) (post : Post)
    (authorID : String) : RecoveryState :=
  let active := s.activeFollowersOf authorID
  let needDistribution := active.filter (fun f => !(zmem (s.timelines f) post.id))
  let timelines :=
    if needDistribution.isEmpty then s.timelines
    else BatchAddToTimeline s.timelines needDistribution post.id post.rankScore post.createdAtUnix
  let key := "distribution_status:" ++ post.id
  { s with timelines := timelines
           ledger := updateDistributionStatus s.ledger key "influencer_push_completed" s.nowUnix }

/-- recoverRegularDistribution: the same with the full follower list and the
regular_push_completed status. -/
def recoverRegularDistribution (s : RecoveryState) (post : Post)
    (authorID : String) : RecoveryState :=
  let followers := s.followersOf authorID
  let needDistribution := followers.filter (fun f => !(zmem (s.timelines f) post.id))
  let timelines :=
    if needDistribution.isEmpty then s.timelines
    else BatchAddToTimeline s.timelines needDistribution post.id post.rankScore post.createdAtUnix
  let key := "distribution_status:" ++ post.id
  { s with timelines := timelines
           ledger := updateDistributionStatus s.ledger key "regular_push_completed" s.nowUnix }

/-- recoverSingleDistribution: skip records younger than 300 seconds, delete
records whose post or author is gone, dispatch on the two started statuses,
and delete records of any other status. -/
def recoverSingleDistribution (s : RecoveryState) (key : String) : RecoveryState :=
  match ledgerGet s.ledger key with
  | none => s
  | some st =>
    if s.nowUnix - st.timestamp < 300 then s
    else
      match postGetByID s.posts st.postID with
      | none => { s with ledger := ledgerDelete s.ledger key }
      | some post =>
        if st.authorID ∈ s.users then
          match st.status with
          | "influencer_push_started" => recoverInfluencerDistribution s post st.authorID
          | "regular_push_started" => recoverRegularDistribution s post st.authorID
          | _ => { s with ledger := ledgerDelete s.ledger key }
        else { s with ledger := ledgerDelete s.ledger key }

/-- scanKeys from recovery.go: the source body returns the empty list
unconditionally (its comment calls it a placeholder pending SCAN support). -/
def scanKeys (s : RecoveryState) (pattern : String) : List String :=
  let _ := s
  let _ := pattern
  []

/-- RecoverPendingDistributions: fold recoverSingleDistribution over the keys
scanKeys yields for the pattern distribution_status:*. -/
def RecoverPendingDistributions (s : RecoveryState) : RecoveryState :=
  (scanKeys s "distribution_status:*").foldl recoverSingleDistribution s

/-! ## DeletePost (feed.go + repository/post.go) -/

/-- A row of the relational timelines table as DeleteByPostID sees it: only
the owner and the referenced post matter. -/
structure DBTimelineRow where
  userID : String
  postID : String
  deriving DecidableEq, Repr

/-- PostRepository.Delete: set is_deleted on every row with the id. -/
def postDelete (posts : List Post) (id : String) : List Post :=
  posts.map (fun p => if p.id = id then { p with isDeleted := true } else p)

/-- TimelineRepository.DeleteByPostID: drop every row referencing the post. -/
def timelineDeleteByPostID (rows : List DBTimelineRow) (postID : String) :
    List DBTimelineRow :=
  rows.filter (fun r => r.postID ≠ postID)

/-- FeedService.DeletePost on a well-formed post id: load the non-deleted
post (not-found error when absent), check that the caller is the author
(permission-denied error otherwise), then tombstone the post and purge its
timeline rows.  The returned triple is the post table, the timeline table and
the error message if any; on the error paths both tables are the originals. -/
def DeletePost (posts : List Post) (rows : List DBTimelineRow)
    (viewerID postID : String) :
    List Post × List DBTimelineRow × Option String :=
  match postGetByID posts postID with
  | none => (posts, rows, some "post not found")
  | some post =>
    if post.userID ≠ viewerID then (posts, rows, some "permission denied")
    else (postDelete posts postID, timelineDeleteByPostID rows postID, none)

/-! ## Concrete fixtures used by the counterexamples and evaluations -/

/-- Member string of the i-th entry of the full timeline fixture: i+2 copies
of the letter a, so the members are pairwise distinct and none equals the
one-letter post id used by the counterexample. -/
def bigMember (i : Nat) : String :=
  String.mk (List.replicate (i + 2) 'a')

/-- A timeline already holding `MaxTimelineSize` entries whose scores 1001,
1002, ... all exceed the score of the post the counterexample fans out. -/
def bigTl : List ZEntry :=
  (List.range MaxTimelineSize).map (fun i : Nat => ⟨1001 + (i : Int), bigMember i⟩)

/-- Post fixture for the distribution traces. -/
def examplePost : Post :=
  { id := "p1", userID := "a", rankScore := 7, createdAtUnix := 100, isDeleted := false }

/-- Recovery fixture: a ledger record stuck in regular_push_started since
epoch 0, observed at epoch 301 (beyond the 300-second timeout), with a
follower f1 whose timeline misses the post. -/
def staleState : RecoveryState :=
  { ledger := [("distribution_status:p1",
      { postID := "p1", authorID := "a", status := "regular_push_started", timestamp := 0 })]
    timelines := fun _ => []
    posts := [examplePost]
    users := ["a", "f1"]
    followersOf := fun a => if a = "a" then ["f1"] else []
    activeFollowersOf := fun _ => []
    nowUnix := 301 }

/-! ## Order facts on sorted-set keys -/

theorem keyLt_irrefl (a : ZEntry) : ¬ ZEntry.keyLt a a := by
  unfold ZEntry.keyLt
  rintro (h | ⟨-, h⟩) <;> exact lt_irrefl _ h

theorem keyLt_trans {a b c : ZEntry} (h1 : ZEntry.keyLt a b) (h2 : ZEntry.keyLt b c) :
    ZEntry.keyLt a c := by
  unfold ZEntry.keyLt at *
  rcases h1 with h1 | ⟨e1, m1⟩ <;> rcases h2 with h2 | ⟨e2, m2⟩
  · exact Or.inl (lt_trans h1 h2)
  · exact Or.inl (e2 ▸ h1)
  · exact Or.inl (e1 ▸ h2)
  · exact Or.inr ⟨e1.trans e2, lt_trans m1 m2⟩

theorem keyLt_asymm {a b : ZEntry} (h : ZEntry.keyLt a b) : ¬ ZEntry.keyLt b a := by
  intro h2
  exact keyLt_irrefl a (keyLt_trans h h2)

theorem keyLt_of_not_keyLt {a b : ZEntry} (h : ¬ ZEntry.keyLt a b)
    (hm : a.member ≠ b.member) : ZEntry.keyLt b a := by
  unfold ZEntry.keyLt at *
  push_neg at h
  rcases lt_trichotomy b.score a.score with hs | hs | hs
  · exact Or.inl hs
  · refine Or.inr ⟨hs, ?_⟩
    rcases lt_trichotomy b.member a.member with hmm | hmm | hmm
    · exact hmm
    · exact absurd hmm.symm hm
    · exact absurd hmm (not_lt.mpr (h.2 hs.symm))
  · exact absurd hs (not_lt.mpr h.1)

/-! ## Lemmas about zrem -/

theorem zrem_nil (m : String) : zrem [] m = [] := rfl

theorem zrem_cons (x : ZEntry) (xs : List ZEntry) (m : String) :
    zrem (x :: xs) m = if x.member = m then zrem xs m else x :: zrem xs m := by
  unfold zrem
  by_cases h : x.member = m <;> simp [List.filter_cons, h]

theorem zrem_sublist (l : List ZEntry) (m : String) : List.Sublist (zrem l m) l :=
  List.filter_sublist l

theorem mem_zrem_iff {l : List ZEntry} {m : String} {e : ZEntry} :
    e ∈ zrem l m ↔ e ∈ l ∧ e.member ≠ m := by
  unfold zrem
  simp [List.mem_filter]

theorem zrem_sorted {l : List ZEntry} (h : ZSorted l) (m : String) :
    ZSorted (zrem l m) :=
  List.Pairwise.sublist (zrem_sublist l m) h

theorem zrem_eq_self {l : List ZEntry} {m : String}
    (h : ∀ e ∈ l, e.member ≠ m) : zrem l m = l := by
  induction l with
  | nil => rfl
  | cons x xs ih =>
    rw [zrem_cons, if_neg (h x (by simp)), ih (fun e he => h e (by simp [he]))]

theorem countMember_nil (q : String) : countMember [] q = 0 := rfl

theorem countMember_cons (x : ZEntry) (xs : List ZEntry) (q : String) :
    countMember (x :: xs) q =
      (if x.member = q then 1 else 0) + countMember xs q := by
  unfold countMember
  by_cases h : x.member = q <;> simp [List.filter_cons, h] <;> omega

theorem countMember_eq_zero {l : List ZEntry} {q : String} :
    countMember l q = 0 ↔ ∀ e ∈ l, e.member ≠ q := by
  induction l with
  | nil => simp [countMember_nil]
  | cons x xs ih =>
    rw [countMember_cons]
    by_cases h : x.member = q <;> simp [h, ih]

theorem countMember_zrem_self (l : List ZEntry) (m : String) :
    countMember (zrem l m) m = 0 := by
  rw [countMember_eq_zero]
  intro e he
  exact (mem_zrem_iff.mp he).2

theorem countMember_append (A B : List ZEntry) (q : String) :
    countMember (A ++ B) q = countMember A q + countMember B q := by
  unfold countMember
  rw [List.filter_append, List.length_append]

theorem countMember_le_of_sublist {l l' : List ZEntry} (h : List.Sublist l l')
    (q : String) : countMember l q ≤ countMember l' q :=
  List.Sublist.length_le (List.Sublist.filter _ h)

/-! ## Lemmas about zinsert -/

theorem zinsert_nil (e : ZEntry) : zinsert e [] = [e] := rfl

theorem zinsert_cons (e x : ZEntry) (xs : List ZEntry) :
    zinsert e (x :: xs) =
      if ZEntry.keyLt e x then e :: x :: xs else x :: zinsert e xs := rfl

theorem mem_zinsert_self (e : ZEntry) (l : List ZEntry) : e ∈ zinsert e l := by
  induction l with
  | nil => simp [zinsert_nil]
  | cons x xs ih =>
    rw [zinsert_cons]
    by_cases h : ZEntry.keyLt e x <;> simp [h, ih]

theorem mem_zinsert {e x : ZEntry} {l : List ZEntry} :
    x ∈ zinsert e l ↔ x = e ∨ x ∈ l := by
  induction l with
  | nil => simp [zinsert_nil]
  | cons y ys ih =>
    rw [zinsert_cons]
    by_cases h : ZEntry.keyLt e y
    · rw [if_pos h]
      simp [List.mem_cons]
    · rw [if_neg h]
      simp only [List.mem_cons, ih]
      tauto

theorem length_zinsert (e : ZEntry) (l : List ZEntry) :
    (zinsert e l).length = l.length + 1 := by
  induction l with
  | nil => simp [zinsert_nil]
  | cons x xs ih =>
    rw [zinsert_cons]
    by_cases h : ZEntry.keyLt e x <;> simp [h, ih]

theorem countMember_zinsert (e : ZEntry) (l : List ZEntry) (q : String) :
    countMember (zinsert e l) q =
      countMember l q + (if e.member = q then 1 else 0) := by
  induction l with
  | nil => rw [zinsert_nil, countMember_cons, countMember_nil]; omega
  | cons x xs ih =>
    rw [zinsert_cons]
    by_cases h : ZEntry.keyLt e x
    · rw [if_pos h, countMember_cons, countMember_cons]
      omega
    · rw [if_neg h, countMember_cons, countMember_cons, ih]
      omega

theorem zinsert_sorted {l : List ZEntry} {e : ZEntry} (h : ZSorted l)
    (hm : ∀ x ∈ l, x.member ≠ e.member) : ZSorted (zinsert e l) := by
  induction l with
  | nil => simp [zinsert_nil, ZSorted]
  | cons x xs ih =>
    rw [zinsert_cons]
    rcases List.pairwise_cons.mp h with ⟨hx, hxs⟩
    by_cases hlt : ZEntry.keyLt e x
    · rw [if_pos hlt]
      refine List.pairwise_cons.mpr ⟨?_, h⟩
      intro y hy
      rcases List.mem_cons.mp hy with rfl | hy
      · exact hlt
      · exact keyLt_trans hlt (hx y hy)
    · rw [if_neg hlt]
      have hxe : ZEntry.keyLt x e :=
        keyLt_of_not_keyLt hlt fun hh => hm x (by simp) hh.symm
      refine List.pairwise_cons.mpr
        ⟨?_, ih hxs (fun y hy => hm y (by simp [hy]))⟩
      intro y hy
      rcases mem_zinsert.mp hy with rfl | hy
      · exact hxe
      · exact hx y hy

theorem zinsert_append {e : ZEntry} {A B : List ZEntry}
    (hA : ∀ a ∈ A, ¬ ZEntry.keyLt e a) :
    zinsert e (A ++ B) = A ++ zinsert e B := by
  induction A with
  | nil => simp
  | cons a as ih =>
    have ha : ¬ ZEntry.keyLt e a := hA a (by simp)
    rw [List.cons_append, zinsert_cons, if_neg ha,
      ih (fun x hx => hA x (by simp [hx])), List.cons_append]

theorem zrem_zinsert_self (e : ZEntry) (l : List ZEntry) :
    zrem (zinsert e l) e.member = zrem l e.member := by
  induction l with
  | nil => simp [zinsert_nil, zrem_cons, zrem_nil]
  | cons x xs ih =>
    rw [zinsert_cons]
    by_cases h : ZEntry.keyLt e x
    · rw [if_pos h, zrem_cons, if_pos rfl]
    · rw [if_neg h, zrem_cons, zrem_cons x xs e.member]
      by_cases hx : x.member = e.member
      · rw [if_pos hx, if_pos hx, ih]
      · rw [if_neg hx, if_neg hx, ih]

/-! ## Lemmas about zadd -/

theorem zadd_sorted {l : List ZEntry} (h : ZSorted l) (s : Int) (m : String) :
    ZSorted (zadd l s m) := by
  unfold zadd
  refine zinsert_sorted (zrem_sorted h m) ?_
  intro x hx
  exact (mem_zrem_iff.mp hx).2

theorem countMember_zadd_self (l : List ZEntry) (s : Int) (m : String) :
    countMember (zadd l s m) m = 1 := by
  unfold zadd
  rw [countMember_zinsert, countMember_zrem_self, if_pos rfl]

theorem mem_zadd_member {l : List ZEntry} {s : Int} {m : String} {e : ZEntry}
    (he : e ∈ zadd l s m) (hm : e.member = m) : e = ⟨s, m⟩ := by
  unfold zadd at he
  rcases mem_zinsert.mp he with rfl | he
  · rfl
  · exact absurd hm (mem_zrem_iff.mp he).2

theorem length_zadd_le (l : List ZEntry) (s : Int) (m : String) :
    (zadd l s m).length ≤ l.length + 1 := by
  unfold zadd
  rw [length_zinsert]
  have := List.Sublist.length_le (zrem_sublist l m)
  omega

theorem zrem_append (A B : List ZEntry) (m : String) :
    zrem (A ++ B) m = zrem A m ++ zrem B m := by
  unfold zrem
  exact List.filter_append _ _

theorem zadd_of_mem {L : List ZEntry} {ts : Int} {p : String}
    (hs : ZSorted L) (hc : countMember L p ≤ 1) (hmem : (⟨ts, p⟩ : ZEntry) ∈ L) :
    zadd L ts p = L := by
  obtain ⟨A, B, rfl⟩ := List.append_of_mem hmem
  have hep : (⟨ts, p⟩ : ZEntry).member = p := rfl
  have hcnt : countMember A p = 0 ∧ countMember B p = 0 := by
    rw [countMember_append, countMember_cons, if_pos hep] at hc
    exact ⟨by omega, by omega⟩
  have hA : ∀ a ∈ A, a.member ≠ p := countMember_eq_zero.mp hcnt.1
  have hB : ∀ b ∈ B, b.member ≠ p := countMember_eq_zero.mp hcnt.2
  have hsplit := List.pairwise_append.mp hs
  have hEB : List.Pairwise ZEntry.keyLt ((⟨ts, p⟩ : ZEntry) :: B) := hsplit.2.1
  have hcross := hsplit.2.2
  unfold zadd
  rw [zrem_append, zrem_eq_self hA, zrem_cons, if_pos hep, zrem_eq_self hB,
    zinsert_append (fun a ha => keyLt_asymm (hcross a ha ⟨ts, p⟩ (by simp)))]
  congr 1
  cases B with
  | nil => rw [zinsert_nil]
  | cons b bs =>
    rw [zinsert_cons, if_pos ((List.pairwise_cons.mp hEB).1 b (by simp))]

/-! ## Lemmas about ztrim -/

theorem ztrim_sublist (l : List ZEntry) : List.Sublist (ztrim l) l :=
  List.drop_sublist _ l

theorem length_ztrim_le (l : List ZEntry) : (ztrim l).length ≤ MaxTimelineSize := by
  unfold ztrim
  rw [List.length_drop]
  omega

theorem ztrim_sorted {l : List ZEntry} (h : ZSorted l) : ZSorted (ztrim l) :=
  List.Pairwise.sublist (ztrim_sublist l) h

theorem ztrim_eq_self {l : List ZEntry} (h : l.length ≤ MaxTimelineSize) :
    ztrim l = l := by
  unfold ztrim
  rw [Nat.sub_eq_zero_of_le h, List.drop_zero]

theorem countMember_ztrim_le (l : List ZEntry) (q : String) :
    countMember (ztrim l) q ≤ countMember l q :=
  countMember_le_of_sublist (ztrim_sublist l) q

/-! ## Lemmas about AddToTimeline -/

theorem AddToTimeline_def (tl : List ZEntry) (p : String) (s ts : Int) :
    AddToTimeline tl p s ts = ztrim (zadd tl ts p) := rfl

theorem length_AddToTimeline_le (tl : List ZEntry) (p : String) (s ts : Int) :
    (AddToTimeline tl p s ts).length ≤ MaxTimelineSize :=
  length_ztrim_le _

theorem AddToTimeline_sorted {tl : List ZEntry} (h : ZSorted tl)
    (p : String) (s ts : Int) : ZSorted (AddToTimeline tl p s ts) :=
  ztrim_sorted (zadd_sorted h ts p)

theorem countMember_AddToTimeline_self_le (tl : List ZEntry) (p : String)
    (s ts : Int) : countMember (AddToTimeline tl p s ts) p ≤ 1 := by
  rw [AddToTimeline_def]
  calc countMember (ztrim (zadd tl ts p)) p
      ≤ countMember (zadd tl ts p) p := countMember_ztrim_le _ p
    _ = 1 := countMember_zadd_self tl ts p

theorem mem_AddToTimeline_member {tl : List ZEntry} {p : String} {s ts : Int}
    {e : ZEntry} (he : e ∈ AddToTimeline tl p s ts) (hm : e.member = p) :
    e = ⟨ts, p⟩ :=
  mem_zadd_member (List.Sublist.mem he (ztrim_sublist _)) hm

theorem mem_AddToTimeline_of_small {tl : List ZEntry} {p : String} {s ts : Int}
    (h : tl.length < MaxTimelineSize) :
    (⟨ts, p⟩ : ZEntry) ∈ AddToTimeline tl p s ts := by
  rw [AddToTimeline_def,
    ztrim_eq_self (le_trans (length_zadd_le tl ts p) (by omega))]
  exact mem_zinsert_self _ _

theorem ztrim_cons_full {l : List ZEntry} (hlen : l.length = MaxTimelineSize)
    (e : ZEntry) : ztrim (e :: l) = l := by
  unfold ztrim
  rw [List.length_cons, hlen]
  have h1 : MaxTimelineSize + 1 - MaxTimelineSize = 1 := by omega
  rw [h1, List.drop_succ_cons, List.drop_zero]

theorem AddToTimeline_idem {tl : List ZEntry} (h : ZSorted tl)
    (p : String) (s ts : Int) :
    AddToTimeline (AddToTimeline tl p s ts) p s ts = AddToTimeline tl p s ts := by
  have hsorted1 : ZSorted (zadd tl ts p) := zadd_sorted h ts p
  have hcount1 : countMember (zadd tl ts p) p = 1 := countMember_zadd_self tl ts p
  by_cases hlen : (zadd tl ts p).length ≤ MaxTimelineSize
  · have ht : ztrim (zadd tl ts p) = zadd tl ts p := ztrim_eq_self hlen
    rw [AddToTimeline_def tl, ht, AddToTimeline_def,
      zadd_of_mem hsorted1 (le_of_eq hcount1) (mem_zinsert_self _ _), ht]
  · push_neg at hlen
    have hsortedT : ZSorted (ztrim (zadd tl ts p)) := ztrim_sorted hsorted1
    have hcountT : countMember (ztrim (zadd tl ts p)) p ≤ 1 := by
      have := countMember_ztrim_le (zadd tl ts p) p
      omega
    have hlenT : (ztrim (zadd tl ts p)).length = MaxTimelineSize := by
      have h2 : (ztrim (zadd tl ts p)).length =
          (zadd tl ts p).length - ((zadd tl ts p).length - MaxTimelineSize) := by
        unfold ztrim
        exact List.length_drop _ _
      omega
    rw [AddToTimeline_def tl]
    by_cases hmem : (⟨ts, p⟩ : ZEntry) ∈ ztrim (zadd tl ts p)
    · rw [AddToTimeline_def, zadd_of_mem hsortedT hcountT hmem,
        ztrim_eq_self (le_of_eq hlenT)]
    · have heD : (⟨ts, p⟩ : ZEntry) ∈
          (zadd tl ts p).take ((zadd tl ts p).length - MaxTimelineSize) := by
        have hm : (⟨ts, p⟩ : ZEntry) ∈ zadd tl ts p := mem_zinsert_self _ _
        rcases List.mem_append.mp
          ((List.take_append_drop ((zadd tl ts p).length - MaxTimelineSize)
            (zadd tl ts p)).symm ▸ hm) with hd | hrest
        · exact hd
        · exact absurd hrest hmem
      have hcross : ∀ x ∈ ztrim (zadd tl ts p),
          ZEntry.keyLt ⟨ts, p⟩ x := by
        intro x hx
        have hp : List.Pairwise ZEntry.keyLt
            ((zadd tl ts p).take ((zadd tl ts p).length - MaxTimelineSize) ++
              (zadd tl ts p).drop ((zadd tl ts p).length - MaxTimelineSize)) := by
          rw [List.take_append_drop]
          exact hsorted1
        exact (List.pairwise_append.mp hp).2.2 _ heD x hx
      have hT0 : countMember (ztrim (zadd tl ts p)) p = 0 := by
        rw [countMember_eq_zero]
        intro x hx hxm
        have hxe : x = ⟨ts, p⟩ :=
          mem_zadd_member (List.Sublist.mem hx (ztrim_sublist _)) hxm
        exact hmem (hxe ▸ hx)
      have hremT : zrem (ztrim (zadd tl ts p)) p = ztrim (zadd tl ts p) :=
        zrem_eq_self (countMember_eq_zero.mp hT0)
      have hinsT : zadd (ztrim (zadd tl ts p)) ts p =
          ⟨ts, p⟩ :: ztrim (zadd tl ts p) := by
        show zinsert ⟨ts, p⟩ (zrem (ztrim (zadd tl ts p)) p) = _
        rw [hremT]
        cases htl : ztrim (zadd tl ts p) with
        | nil => rw [zinsert_nil]
        | cons b bs =>
          rw [zinsert_cons, if_pos (hcross b (by rw [htl]; simp))]
      rw [AddToTimeline_def, hinsT, ztrim_cons_full hlenT]

/-! ## Member multiplicity and well-formedness preservation -/

theorem mem_map_member_iff {l : List ZEntry} {q : String} :
    q ∈ l.map ZEntry.member ↔ 0 < countMember l q := by
  induction l with
  | nil => simp [countMember_nil]
  | cons x xs ih =>
    rw [List.map_cons, List.mem_cons, countMember_cons]
    by_cases h : x.member = q
    · subst h
      simp
    · have h2 : ¬(q = x.member) := fun hh => h hh.symm
      simp only [h2, false_or, if_neg h, Nat.zero_add]
      exact ih

theorem nodup_members_iff {l : List ZEntry} :
    (l.map ZEntry.member).Nodup ↔ ∀ q, countMember l q ≤ 1 := by
  induction l with
  | nil => simp [countMember_nil]
  | cons x xs ih =>
    rw [List.map_cons, List.nodup_cons]
    constructor
    · rintro ⟨hnotin, hnd⟩ q
      rw [countMember_cons]
      by_cases h : x.member = q
      · subst h
        have h0 : countMember xs x.member = 0 := by
          by_contra hc
          exact hnotin (mem_map_member_iff.mpr (Nat.pos_of_ne_zero hc))
        rw [if_pos rfl]
        omega
      · have := ih.mp hnd q
        rw [if_neg h]
        omega
    · intro hq
      constructor
      · intro hin
        have h1 := hq x.member
        rw [countMember_cons, if_pos rfl] at h1
        have h2 := mem_map_member_iff.mp hin
        omega
      · refine ih.mpr (fun q => ?_)
        have := hq q
        rw [countMember_cons] at this
        by_cases h : x.member = q
        · rw [if_pos h] at this; omega
        · rw [if_neg h] at this; omega

theorem countMember_zadd_other {l : List ZEntry} {q p : String} (hq : q ≠ p)
    (s : Int) : countMember (zadd l s p) q = countMember (zrem l p) q := by
  unfold zadd
  rw [countMember_zinsert, if_neg (fun hh => hq hh.symm)]
  omega

theorem AddToTimeline_WF {tl : List ZEntry} (h : ZWF tl) (p : String)
    (s ts : Int) : ZWF (AddToTimeline tl p s ts) := by
  obtain ⟨hs, hnd⟩ := h
  refine ⟨AddToTimeline_sorted hs p s ts, nodup_members_iff.mpr (fun q => ?_)⟩
  by_cases hq : q = p
  · subst hq
    exact countMember_AddToTimeline_self_le tl q s ts
  · have h1 : countMember (AddToTimeline tl p s ts) q ≤
        countMember (zadd tl ts p) q := countMember_ztrim_le _ q
    have h2 : countMember (zadd tl ts p) q = countMember (zrem tl p) q :=
      countMember_zadd_other hq ts
    have h3 : countMember (zrem tl p) q ≤ countMember tl q :=
      countMember_le_of_sublist (zrem_sublist tl p) q
    have h4 := nodup_members_iff.mp hnd q
    omega

theorem AddToTimeline_iterate {tl : List ZEntry} (h : ZSorted tl)
    (p : String) (s ts : Int) (n : Nat) :
    (fun t => AddToTimeline t p s ts)^[n + 1] tl = AddToTimeline tl p s ts := by
  induction n with
  | zero => simp
  | succ k ih =>
    rw [Function.iterate_succ_apply', ih]
    exact AddToTimeline_idem h p s ts

/-! ## Lemmas about BatchAddToTimeline -/

theorem Batch_cons (σ : TimelineStore) (a : String) (rest : List String)
    (p : String) (s ts : Int) :
    BatchAddToTimeline σ (a :: rest) p s ts =
      BatchAddToTimeline
        (Function.update σ a (AddToTimeline (σ a) p s ts)) rest p s ts := rfl

theorem Batch_not_mem {σ : TimelineStore} {ids : List String} {u : String}
    (h : u ∉ ids) (p : String) (s ts : Int) :
    BatchAddToTimeline σ ids p s ts u = σ u := by
  induction ids generalizing σ with
  | nil => rfl
  | cons a rest ih =>
    have hu : u ≠ a := fun hh => h (by simp [hh])
    rw [Batch_cons, ih (fun hh => h (by simp [hh]))]
    exact Function.update_noteq hu _ σ

theorem Batch_pointwise {σ : TimelineStore} (hσ : ∀ k, ZSorted (σ k))
    (ids : List String) (p : String) (s ts : Int) (u : String) :
    BatchAddToTimeline σ ids p s ts u =
      if u ∈ ids then AddToTimeline (σ u) p s ts else σ u := by
  induction ids generalizing σ with
  | nil => simp [BatchAddToTimeline]
  | cons a rest ih =>
    rw [Batch_cons]
    have hσ2 : ∀ k,
        ZSorted (Function.update σ a (AddToTimeline (σ a) p s ts) k) := by
      intro k
      by_cases hk : k = a
      · subst hk
        rw [Function.update_same]
        exact AddToTimeline_sorted (hσ k) p s ts
      · rw [Function.update_noteq hk]
        exact hσ k
    rw [ih hσ2]
    by_cases hu : u ∈ rest
    · rw [if_pos hu, if_pos (by simp [hu])]
      by_cases hua : u = a
      · subst hua
        rw [Function.update_same]
        exact AddToTimeline_idem (hσ u) p s ts
      · rw [Function.update_noteq hua]
    · rw [if_neg hu]
      by_cases hua : u = a
      · subst hua
        rw [if_pos (by simp), Function.update_same]
      · rw [if_neg (by simp [hua, hu]), Function.update_noteq hua]

theorem Batch_sorted {σ : TimelineStore} (hσ : ∀ k, ZSorted (σ k))
    (ids : List String) (p : String) (s ts : Int) (k : String) :
    ZSorted (BatchAddToTimeline σ ids p s ts k) := by
  rw [Batch_pointwise hσ]
  by_cases hk : k ∈ ids
  · rw [if_pos hk]
    exact AddToTimeline_sorted (hσ k) p s ts
  · rw [if_neg hk]
    exact hσ k

theorem Batch_idem {σ : TimelineStore} (hσ : ∀ k, ZSorted (σ k))
    (ids : List String) (p : String) (s ts : Int) :
    BatchAddToTimeline (BatchAddToTimeline σ ids p s ts) ids p s ts =
      BatchAddToTimeline σ ids p s ts := by
  funext u
  rw [Batch_pointwise (Batch_sorted hσ ids p s ts), Batch_pointwise hσ]
  by_cases hu : u ∈ ids
  · simp only [if_pos hu]
    exact AddToTimeline_idem (hσ u) p s ts
  · simp only [if_neg hu]

theorem Batch_length_le (σ : TimelineStore) (ids : List String)
    (p : String) (s ts : Int) :
    ∀ u ∈ ids, (BatchAddToTimeline σ ids p s ts u).length ≤ MaxTimelineSize := by
  induction ids generalizing σ with
  | nil =>
    intro u hu
    cases hu
  | cons a rest ih =>
    intro u hu
    rw [Batch_cons]
    by_cases hur : u ∈ rest
    · exact ih _ u hur
    · rcases List.mem_cons.mp hu with rfl | h2
      · rw [Batch_not_mem hur, Function.update_same]
        exact length_AddToTimeline_le _ _ _ _
      · exact absurd h2 hur

theorem Batch_member_entry (σ : TimelineStore) (ids : List String)
    (p : String) (s ts : Int) :
    ∀ u ∈ ids, ∀ e ∈ BatchAddToTimeline σ ids p s ts u,
      e.member = p → e = ⟨ts, p⟩ := by
  induction ids generalizing σ with
  | nil =>
    intro u hu
    cases hu
  | cons a rest ih =>
    intro u hu e he hm
    have he2 : e ∈ BatchAddToTimeline
        (Function.update σ a (AddToTimeline (σ a) p s ts)) rest p s ts u := he
    by_cases hur : u ∈ rest
    · exact ih _ u hur e he2 hm
    · rcases List.mem_cons.mp hu with rfl | h2
      · rw [Batch_not_mem hur, Function.update_same] at he2
        exact mem_AddToTimeline_member he2 hm
      · exact absurd h2 hur

/-! ## Lemmas about GetTimeline -/

theorem foldl_toString_last (l : List ZEntry) (a : String) :
    l.foldl (fun _ e => toString e.score) a =
      (match l.getLast? with
        | none => a
        | some e => toString e.score) := by
  induction l generalizing a with
  | nil => rfl
  | cons x xs ih =>
    rw [List.foldl_cons, ih]
    cases xs with
    | nil => rfl
    | cons y ys =>
      rw [List.getLast?_cons_cons]
      cases hl : (y :: ys).getLast? with
      | none =>
        rw [List.getLast?_eq_none] at hl
        cases hl
      | some e => rfl

theorem GetTimeline_items_lt {tl : List ZEntry} {c now : Int} {n : Nat} :
    ∀ it ∈ (GetTimeline tl (some c) now n).items, it.score < c := by
  intro it hit
  unfold GetTimeline zrevrangeByScoreLt at hit
  simp only [Option.getD_some, List.mem_map] at hit
  obtain ⟨e, he, rfl⟩ := hit
  have he2 : e ∈ (tl.filter (fun e => e.score < c)).reverse.take (n + 1) := by
    by_cases hlen :
        ((tl.filter (fun e => e.score < c)).reverse.take (n + 1)).length > n
    · rw [if_pos hlen] at he
      exact List.take_subset _ _ he
    · rw [if_neg hlen] at he
      exact he
  have he3 := List.take_subset _ _ he2
  rw [List.mem_reverse] at he3
  simpa using (List.mem_filter.mp he3).2

theorem GetTimeline_items_sorted {tl : List ZEntry} (h : ZSorted tl)
    {c now : Int} {n : Nat} :
    (GetTimeline tl (some c) now n).items.Pairwise
      (fun a b => b.score ≤ a.score) := by
  unfold GetTimeline zrevrangeByScoreLt
  simp only [Option.getD_some]
  have h1 : (tl.filter (fun e => e.score < c)).Pairwise ZEntry.keyLt :=
    List.Pairwise.filter _ h
  have h2 : (tl.filter (fun e => e.score < c)).reverse.Pairwise
      (fun a b => ZEntry.keyLt b a) :=
    List.pairwise_reverse.mpr h1
  have h3 : ((tl.filter (fun e => e.score < c)).reverse.take (n + 1)).Pairwise
      (fun a b => ZEntry.keyLt b a) :=
    List.Pairwise.sublist (List.take_sublist _ _) h2
  have h4 : (if ((tl.filter (fun e => e.score < c)).reverse.take (n + 1)).length > n
      then ((tl.filter (fun e => e.score < c)).reverse.take (n + 1)).take n
      else (tl.filter (fun e => e.score < c)).reverse.take (n + 1)).Pairwise
      (fun a b => ZEntry.keyLt b a) := by
    by_cases hlen :
        ((tl.filter (fun e => e.score < c)).reverse.take (n + 1)).length > n
    · rw [if_pos hlen]
      exact List.Pairwise.sublist (List.take_sublist _ _) h3
    · rw [if_neg hlen]
      exact h3
  refine List.Pairwise.map _ ?_ h4
  intro a b hab
  rcases hab with hlt | ⟨heq, -⟩
  · exact le_of_lt hlt
  · exact le_of_eq heq

theorem GetTimeline_items_length_le (tl : List ZEntry) (c now : Int) (n : Nat) :
    (GetTimeline tl (some c) now n).items.length ≤ n := by
  unfold GetTimeline
  simp only [Option.getD_some, List.length_map]
  by_cases hlen : (zrevrangeByScoreLt tl c (n + 1)).length > n
  · rw [if_pos hlen]
    exact List.length_take_le _ _
  · rw [if_neg hlen]
    omega

theorem GetTimeline_hasMore_iff (tl : List ZEntry) (c now : Int) (n : Nat) :
    (GetTimeline tl (some c) now n).hasMore = true ↔
      n + 1 ≤ (tl.filter (fun e => e.score < c)).length := by
  unfold GetTimeline
  simp only [Option.getD_some, decide_eq_true_eq]
  have hlen : (zrevrangeByScoreLt tl c (n + 1)).length =
      min (n + 1) (tl.filter (fun e => e.score < c)).length := by
    unfold zrevrangeByScoreLt
    rw [List.length_take, List.length_reverse]
  omega

theorem GetTimeline_nextCursor_empty {tl : List ZEntry} {c now : Int} {n : Nat}
    (h : (GetTimeline tl (some c) now n).items = []) :
    (GetTimeline tl (some c) now n).nextCursor = "" := by
  unfold GetTimeline at h ⊢
  simp only [Option.getD_some, List.map_eq_nil_iff] at h
  simp only [Option.getD_some, h, List.foldl_nil]

theorem GetTimeline_some_eq (tl : List ZEntry) (c now : Int) (n : Nat) :
    GetTimeline tl (some c) now n =
      { items := (if (zrevrangeByScoreLt tl c (n + 1)).length > n
            then (zrevrangeByScoreLt tl c (n + 1)).take n
            else zrevrangeByScoreLt tl c (n + 1)).map
            (fun e => { postID := e.member, score := e.score
                        timestampUnix := e.score })
        nextCursor := (if (zrevrangeByScoreLt tl c (n + 1)).length > n
            then (zrevrangeByScoreLt tl c (n + 1)).take n
            else zrevrangeByScoreLt tl c (n + 1)).foldl
            (fun _ e => toString e.score) ""
        hasMore := decide ((zrevrangeByScoreLt tl c (n + 1)).length > n) } := rfl

theorem GetTimeline_nextCursor_last {tl : List ZEntry} {c now : Int} {n : Nat}
    {it : TimelineItem}
    (h : (GetTimeline tl (some c) now n).items.getLast? = some it) :
    (GetTimeline tl (some c) now n).nextCursor = toString it.score := by
  rw [GetTimeline_some_eq] at h ⊢
  dsimp only at h ⊢
  rw [List.getLast?_map] at h
  rw [foldl_toString_last]
  cases hl : (if (zrevrangeByScoreLt tl c (n + 1)).length > n
      then (zrevrangeByScoreLt tl c (n + 1)).take n
      else zrevrangeByScoreLt tl c (n + 1)).getLast? with
  | none =>
    rw [hl] at h
    cases h
  | some e =>
    rw [hl] at h
    have h2 : some (⟨e.member, e.score, e.score⟩ : TimelineItem) = some it := h
    cases h2
    rfl

/-! ## Facts about the full-timeline fixture -/

theorem bigMember_ne (i : Nat) : bigMember i ≠ "p" := by
  intro h
  have h2 : (List.replicate (i + 2) 'a').length = ("p".data).length :=
    congrArg List.length (congrArg String.data h)
  rw [List.length_replicate] at h2
  have h3 : ("p".data).length = 1 := by decide
  omega

theorem bigTl_members : ∀ e ∈ bigTl, e.member ≠ "p" := by
  intro e he
  unfold bigTl at he
  obtain ⟨i, -, rfl⟩ := List.mem_map.mp he
  exact bigMember_ne i

theorem bigTl_keyGt : ∀ e ∈ bigTl, ZEntry.keyLt ⟨1, "p"⟩ e := by
  intro e he
  unfold bigTl at he
  obtain ⟨i, -, rfl⟩ := List.mem_map.mp he
  left
  show (1 : Int) < 1001 + (i : Int)
  have h0 : (0 : Int) ≤ (i : Int) := Int.natCast_nonneg i
  omega

theorem bigTl_length : bigTl.length = MaxTimelineSize := by
  unfold bigTl
  rw [List.length_map, List.length_range]

theorem zinsert_eq_cons {e : ZEntry} {l : List ZEntry}
    (h : ∀ x ∈ l, ZEntry.keyLt e x) : zinsert e l = e :: l := by
  cases l with
  | nil => rfl
  | cons x xs => rw [zinsert_cons, if_pos (h x (by simp))]

theorem AddToTimeline_bigTl (s : Int) : AddToTimeline bigTl "p" s 1 = bigTl := by
  rw [AddToTimeline_def]
  have h1 : zrem bigTl "p" = bigTl := zrem_eq_self bigTl_members
  have h2 : zadd bigTl 1 "p" = ⟨1, "p"⟩ :: bigTl := by
    show zinsert ⟨1, "p"⟩ (zrem bigTl "p") = _
    rw [h1]
    exact zinsert_eq_cons bigTl_keyGt
  rw [h2, ztrim_cons_full bigTl_length]

/-! ## Entries written by RebuildTimelineFromDB -/

theorem Rebuild_fold_entries (rows : List TimelineRow) :
    ∀ (acc : List ZEntry),
      ∀ e ∈ rows.foldl (fun acc r => zadd acc r.createdAtUnix r.postID) acc,
        e ∈ acc ∨ ∃ r ∈ rows, r.postID = e.member ∧ e.score = r.createdAtUnix := by
  induction rows with
  | nil =>
    intro acc e he
    exact Or.inl he
  | cons r rs ih =>
    intro acc e he
    rcases ih (zadd acc r.createdAtUnix r.postID) e he with hacc | ⟨r2, hr2, hh⟩
    · rcases mem_zinsert.mp hacc with rfl | hmm
      · exact Or.inr ⟨r, by simp, rfl, rfl⟩
      · exact Or.inl ((zrem_sublist acc r.postID).subset hmm)
    · exact Or.inr ⟨r2, by simp [hr2], hh⟩

/-! # Claim theorems -/

/-- Claim C1 (code evaluation, code bug): UpdateUserActivity overwrites the
last-active time with the call time before computing the elapsed interval, so
the decay exponent is always 0 and the decay factor always 1; the stored score
is the prior score plus the increment (clamped), never the decayed value the
claim describes.  Concretely, a user with prior score 100 last active 172800
seconds (48 hours) before a login call stores 105, whereas the claimed value
min(MAX_ACTIVITY_SCORE, 100 · DECAY_FACTOR^(48/24) + 5) is 86; and the stored
result does not depend on the prior last-active time at all. -/
theorem C1_activity_decay_never_applied :
    (UpdateUserActivity ⟨"u", some (1000000 - 172800), 100, false⟩ "login"
      1000000).activityScore = 105 ∧
    min MaxActivityScore (100 * ActivityDecayFactor ^ (2 : ℕ) + 5) = 86 ∧
    UpdateUserActivity ⟨"u", some (1000000 - 172800), 100, false⟩ "login"
        1000000 =
      UpdateUserActivity ⟨"u", some 0, 100, false⟩ "login" 1000000 := by
  refine ⟨?_, ?_, rfl⟩
  · norm_num [UpdateUserActivity, getActivityIncrement, mathPowQ,
      ActivityDecayFactor, MaxActivityScore]
  · norm_num [MaxActivityScore, ActivityDecayFactor]

/-- Claim C2 (code evaluation, code bug): the influencer distribution performs
its batch timeline write first and only then writes a status record, which
carries influencer_push_completed rather than any started status, so the trace
violates the claimed started-before-write protocol; the regular distribution
writes no distribution-status record at all. -/
theorem C2_no_started_record_before_writes :
    distributeForInfluencerTrace examplePost ["f1"] =
      [DistEvent.timelineWrite "f1" "p1",
        DistEvent.statusWrite "p1" "influencer_push_completed"] ∧
    ¬ startedBeforeWrites (distributeForInfluencerTrace examplePost ["f1"]) ∧
    ∀ post authorID followers pid st,
      DistEvent.statusWrite pid st ∉
        distributeForRegularUserTrace post authorID followers := by
  refine ⟨by decide, ?_, ?_⟩
  · intro hsbw
    obtain ⟨j, hj, -⟩ := hsbw ⟨0, by decide⟩ "f1" "p1" (by decide)
    exact absurd hj (Nat.not_lt_zero _)
  · intro post authorID followers pid st h
    unfold distributeForRegularUserTrace at h
    rcases List.mem_append.mp h with h1 | h1
    · by_cases hf : followers.isEmpty
      · rw [if_pos hf] at h1
        cases h1
      · rw [if_neg hf] at h1
        obtain ⟨f, -, hEq⟩ := List.mem_map.mp h1
        exact DistEvent.noConfusion hEq
    · rcases List.mem_cons.mp h1 with hEq | h2
      · exact DistEvent.noConfusion hEq
      · cases h2

/-- Claim C3 counterexample: for an influencer author (6000 followers, push
threshold 5000) the optimized distribution never writes the post to the author
timeline — with zero active followers nothing at all is written, and even with
an active follower the author timeline stays empty — refuting the claim that
the post is always inserted into the author timeline. -/
theorem C3_counterexample :
    distributePostOptimized (fun _ => []) examplePost "a" 6000 5000
      ["f1", "f2"] [] "a" = [] ∧
    distributeForInfluencer (fun _ => []) examplePost ["f1"] "a" = [] := by
  constructor
  · rfl
  · show BatchAddToTimeline (fun _ => []) ["f1"] examplePost.id
      examplePost.rankScore examplePost.createdAtUnix "a" = []
    rw [Batch_not_mem (by decide)]

/-- Claim C3 (amended): regular-mode distribution always performs the
self-insert into the author timeline (and the inserted entry is present
whenever the author timeline held fewer than MaxTimelineSize entries after the
batch step), while influencer-mode distribution never touches the author
timeline when the author is not among the returned active followers — in
particular the post is not written to the author timeline when zero active
followers are found. -/
theorem C3_amended (σ : TimelineStore) (post : Post) (authorID : String)
    (followers activeFollowers : List String) :
    (distributeForRegularUser σ post authorID followers authorID =
      AddToTimeline
        ((if followers.isEmpty then σ
          else BatchAddToTimeline σ followers post.id post.rankScore
            post.createdAtUnix) authorID)
        post.id post.rankScore post.createdAtUnix) ∧
    (((if followers.isEmpty then σ
          else BatchAddToTimeline σ followers post.id post.rankScore
            post.createdAtUnix) authorID).length < MaxTimelineSize →
      (⟨post.createdAtUnix, post.id⟩ : ZEntry) ∈
        distributeForRegularUser σ post authorID followers authorID) ∧
    (authorID ∉ activeFollowers →
      distributeForInfluencer σ post activeFollowers authorID = σ authorID) := by
  have h1 : distributeForRegularUser σ post authorID followers authorID =
      AddToTimeline
        ((if followers.isEmpty then σ
          else BatchAddToTimeline σ followers post.id post.rankScore
            post.createdAtUnix) authorID)
        post.id post.rankScore post.createdAtUnix := by
    unfold distributeForRegularUser
    rw [Function.update_same]
  refine ⟨h1, ?_, ?_⟩
  · intro hlen
    rw [h1]
    exact mem_AddToTimeline_of_small hlen
  · intro hnot
    unfold distributeForInfluencer
    by_cases hf : activeFollowers.isEmpty
    · rw [if_pos hf]
    · rw [if_neg hf]
      exact Batch_not_mem hnot _ _ _

/-- Witness for the amended claim C3 at a concrete input: a single-follower
regular fan-out leaves the entry in the author timeline, and an influencer
fan-out to one active follower leaves the author timeline untouched. -/
theorem C3_amended_witness :
    (⟨100, "p1"⟩ : ZEntry) ∈
      distributeForRegularUser (fun _ => []) examplePost "a" ["f1"] "a" ∧
    distributeForInfluencer (fun _ => []) examplePost ["f1"] "a" =
      (fun _ => ([] : List ZEntry)) "a" := by
  have h := C3_amended (fun _ => []) examplePost "a" ["f1"] ["f1"]
  exact ⟨h.2.1 (by decide), h.2.2 (by decide)⟩

/-- Claim C4 (code evaluation, code bug): scanKeys returns no keys, so a run
of RecoverPendingDistributions is the identity on every state; on the concrete
stale state the started record survives untouched and the follower timeline
still misses the post, instead of the claimed re-insertion and transition to
completed. -/
theorem C4_recovery_is_noop :
    (∀ s : RecoveryState, RecoverPendingDistributions s = s) ∧
    RecoverPendingDistributions staleState = staleState ∧
    ledgerGet (RecoverPendingDistributions staleState).ledger
        "distribution_status:p1" =
      some ⟨"p1", "a", "regular_push_started", 0⟩ ∧
    zmem ((RecoverPendingDistributions staleState).timelines "f1") "p1" =
      false := by
  exact ⟨fun s => rfl, rfl, rfl, rfl⟩

/-- Claim C5 counterexample: at limit 0 with one qualifying entry, GetTimeline
returns no entries and an empty next cursor while has_more is true — so the
clause that next_cursor equals the score of the last returned entry whenever
entries qualify fails: entries qualify, none is returned, and next_cursor is
empty. -/
theorem C5_counterexample :
    (GetTimeline [(⟨5, "p"⟩ : ZEntry)] (some 10) 100 0).hasMore = true ∧
    (GetTimeline [(⟨5, "p"⟩ : ZEntry)] (some 10) 100 0).items = [] ∧
    (GetTimeline [(⟨5, "p"⟩ : ZEntry)] (some 10) 100 0).nextCursor = "" ∧
    (([(⟨5, "p"⟩ : ZEntry)]).filter (fun e => e.score < 10)).length = 1 := by
  exact ⟨rfl, rfl, rfl, rfl⟩

/-- Claim C5 (amended): for a well-formed timeline, cursor epoch c and limit
n, GetTimeline returns only entries with score strictly below c, in descending
score order, at most n of them; has_more is true exactly when at least n+1
entries below c exist; when no entries are returned (in particular when none
qualify, and also at limit 0) next_cursor is the empty string, and when at
least one entry is returned next_cursor is the score of the last returned
entry. -/
theorem C5_page_shape (tl : List ZEntry) (h : ZSorted tl) (c now : Int)
    (n : Nat) :
    (∀ it ∈ (GetTimeline tl (some c) now n).items, it.score < c) ∧
    (GetTimeline tl (some c) now n).items.Pairwise
      (fun a b => b.score ≤ a.score) ∧
    (GetTimeline tl (some c) now n).items.length ≤ n ∧
    ((GetTimeline tl (some c) now n).hasMore = true ↔
      n + 1 ≤ (tl.filter (fun e => e.score < c)).length) ∧
    ((GetTimeline tl (some c) now n).items = [] →
      (GetTimeline tl (some c) now n).nextCursor = "") ∧
    (∀ it, (GetTimeline tl (some c) now n).items.getLast? = some it →
      (GetTimeline tl (some c) now n).nextCursor = toString it.score) :=
  ⟨GetTimeline_items_lt, GetTimeline_items_sorted h,
    GetTimeline_items_length_le tl c now n, GetTimeline_hasMore_iff tl c now n,
    fun hh => GetTimeline_nextCursor_empty hh,
    fun _ hh => GetTimeline_nextCursor_last hh⟩

/-- Witness for the amended claim C5 at a concrete input: a sorted two-entry
timeline below the cursor bound with limit 1 reports has_more. -/
theorem C5_page_shape_witness :
    ZSorted [(⟨1, "x"⟩ : ZEntry), ⟨3, "y"⟩] ∧
    (GetTimeline [(⟨1, "x"⟩ : ZEntry), ⟨3, "y"⟩] (some 5) 9 1).hasMore = true := by
  have hs : ZSorted [(⟨1, "x"⟩ : ZEntry), ⟨3, "y"⟩] := by decide
  exact ⟨hs, ((C5_page_shape _ hs 5 9 1).2.2.2.1).mpr (by decide)⟩

/-- Claim C6 counterexample: a timeline already holding MaxTimelineSize
entries with strictly larger keys evicts the freshly inserted post at once, so
re-running the fan-out of that post yields zero (owner, post) entries, not
exactly one; repeating the insert still leaves the store unchanged. -/
theorem C6_counterexample :
    countMember (AddToTimeline bigTl "p" 7 1) "p" = 0 ∧
    AddToTimeline (AddToTimeline bigTl "p" 7 1) "p" 7 1 =
      AddToTimeline bigTl "p" 7 1 := by
  constructor
  · rw [AddToTimeline_bigTl]
    exact countMember_eq_zero.mpr bigTl_members
  · rw [AddToTimeline_bigTl, AddToTimeline_bigTl]

/-- Claim C6 (amended): timeline insertion is idempotent — one, two or n+1
applications of AddToTimeline leave the same store, and a whole
BatchAddToTimeline repeated is the same as once — a well-formed timeline never
holds more than one entry per post, and re-running the fan-out yields at most
one (owner, post) entry: exactly one whenever the timeline held fewer than
MaxTimelineSize entries, while a full timeline of larger keys may evict it. -/
theorem C6_idempotent_insert (tl : List ZEntry) (σ : TimelineStore)
    (ids : List String) (p : String) (s ts : Int) (h : ZWF tl)
    (hσ : ∀ k, ZSorted (σ k)) :
    AddToTimeline (AddToTimeline tl p s ts) p s ts = AddToTimeline tl p s ts ∧
    (∀ n : Nat,
      (fun t => AddToTimeline t p s ts)^[n + 1] tl = AddToTimeline tl p s ts) ∧
    (∀ q, countMember (AddToTimeline tl p s ts) q ≤ 1) ∧
    BatchAddToTimeline (BatchAddToTimeline σ ids p s ts) ids p s ts =
      BatchAddToTimeline σ ids p s ts ∧
    (tl.length < MaxTimelineSize →
      countMember (AddToTimeline tl p s ts) p = 1) := by
  obtain ⟨hs, hnd⟩ := h
  refine ⟨AddToTimeline_idem hs p s ts, AddToTimeline_iterate hs p s ts,
    fun q => nodup_members_iff.mp (AddToTimeline_WF ⟨hs, hnd⟩ p s ts).2 q,
    Batch_idem hσ ids p s ts, ?_⟩
  intro hlen
  have hmem := @mem_AddToTimeline_of_small tl p s ts hlen
  have hle := countMember_AddToTimeline_self_le tl p s ts
  have hpos : 0 < countMember (AddToTimeline tl p s ts) p :=
    mem_map_member_iff.mp (List.mem_map.mpr ⟨⟨ts, p⟩, hmem, rfl⟩)
  omega

/-- Witness for the amended claim C6 at a concrete input: on a one-entry
well-formed timeline the repeated insert equals the single insert and the
inserted post has exactly one entry. -/
theorem C6_idempotent_insert_witness :
    ZWF [(⟨1, "x"⟩ : ZEntry)] ∧
    AddToTimeline (AddToTimeline [(⟨1, "x"⟩ : ZEntry)] "p" 7 5) "p" 7 5 =
      AddToTimeline [(⟨1, "x"⟩ : ZEntry)] "p" 7 5 ∧
    countMember (AddToTimeline [(⟨1, "x"⟩ : ZEntry)] "p" 7 5) "p" = 1 := by
  have hwf : ZWF [(⟨1, "x"⟩ : ZEntry)] := by decide
  have h := C6_idempotent_insert [(⟨1, "x"⟩ : ZEntry)] (fun _ => []) [] "p" 7 5
    hwf (fun _ => List.Pairwise.nil)
  exact ⟨hwf, h.1, h.2.2.2.2 (by decide)⟩

/-- Claim C7: after AddToTimeline the owner timeline holds at most
MaxTimelineSize = 1000 entries, after BatchAddToTimeline every owner of the
batch does as well, and the trim evicts exactly a lowest-key prefix of the
sorted set: the post-ZADD set splits as evicted ++ kept with every evicted
entry strictly below every kept entry. -/
theorem C7_cap_and_evict_oldest (tl : List ZEntry) (σ : TimelineStore)
    (ids : List String) (p : String) (s ts : Int) (h : ZSorted tl) :
    (AddToTimeline tl p s ts).length ≤ MaxTimelineSize ∧
    (∀ u ∈ ids,
      (BatchAddToTimeline σ ids p s ts u).length ≤ MaxTimelineSize) ∧
    (zadd tl ts p).take ((zadd tl ts p).length - MaxTimelineSize) ++
        AddToTimeline tl p s ts = zadd tl ts p ∧
    (∀ d ∈ (zadd tl ts p).take ((zadd tl ts p).length - MaxTimelineSize),
      ∀ k ∈ AddToTimeline tl p s ts, ZEntry.keyLt d k) := by
  refine ⟨length_AddToTimeline_le tl p s ts, Batch_length_le σ ids p s ts,
    List.take_append_drop _ _, ?_⟩
  intro d hd k hk
  have hp : List.Pairwise ZEntry.keyLt
      ((zadd tl ts p).take ((zadd tl ts p).length - MaxTimelineSize) ++
        (zadd tl ts p).drop ((zadd tl ts p).length - MaxTimelineSize)) := by
    rw [List.take_append_drop]
    exact zadd_sorted h ts p
  exact (List.pairwise_append.mp hp).2.2 d hd k hk

/-- Witness for claim C7 at a concrete input: both the single insert and the
batch insert respect the cap. -/
theorem C7_cap_and_evict_oldest_witness :
    ZSorted [(⟨3, "x"⟩ : ZEntry)] ∧
    (AddToTimeline [(⟨3, "x"⟩ : ZEntry)] "p" 7 5).length ≤ MaxTimelineSize ∧
    (BatchAddToTimeline (fun _ => []) ["u1"] "p" 7 5 "u1").length ≤
      MaxTimelineSize := by
  have hs : ZSorted [(⟨3, "x"⟩ : ZEntry)] := by decide
  have h := C7_cap_and_evict_oldest [(⟨3, "x"⟩ : ZEntry)] (fun _ => []) ["u1"]
    "p" 7 5 hs
  exact ⟨hs, h.1, h.2.1 "u1" (by decide)⟩

/-- Claim C8: the ranking-score argument never reaches the store — the results
of AddToTimeline and BatchAddToTimeline are literally independent of it — and
the entry stored for the post carries the created-at epoch passed as the
timestamp as its sorted-set key; every entry RebuildTimelineFromDB writes
carries the created_at of its row, hence of the referenced post. -/
theorem C8_score_is_created_at (tl : List ZEntry) (σ : TimelineStore)
    (ids : List String) (p : String) (s1 s2 ts : Int)
    (rows : List TimelineRow) (userID : String) (posts : List Post) :
    AddToTimeline tl p s1 ts = AddToTimeline tl p s2 ts ∧
    (∀ e ∈ AddToTimeline tl p s1 ts, e.member = p → e = ⟨ts, p⟩) ∧
    BatchAddToTimeline σ ids p s1 ts = BatchAddToTimeline σ ids p s2 ts ∧
    (∀ u ∈ ids, ∀ e ∈ BatchAddToTimeline σ ids p s1 ts u,
      e.member = p → e = ⟨ts, p⟩) ∧
    (∀ e ∈ RebuildTimelineFromDB rows,
      ∃ r ∈ rows, r.postID = e.member ∧ e.score = r.createdAtUnix) ∧
    (∀ e ∈ RebuildTimelineFromDB (rebuildRows userID posts),
      ∃ post ∈ posts, post.id = e.member ∧ e.score = post.createdAtUnix) := by
  refine ⟨rfl, fun e he hm => mem_AddToTimeline_member he hm, rfl,
    Batch_member_entry σ ids p s1 ts, ?_, ?_⟩
  · intro e he
    rcases Rebuild_fold_entries rows [] e he with hnil | hrow
    · cases hnil
    · exact hrow
  · intro e he
    rcases Rebuild_fold_entries (rebuildRows userID posts) [] e he with
      hnil | ⟨r, hr, hm, hsc⟩
    · cases hnil
    · unfold rebuildRows at hr
      obtain ⟨post, hpost, rfl⟩ := List.mem_map.mp hr
      exact ⟨post, hpost, hm, hsc⟩

/-- Witness for claim C8 at a concrete input: the single row rebuilt from the
example post yields the entry keyed by the created-at epoch, referencing the
post. -/
theorem C8_score_is_created_at_witness :
    (⟨100, "p1"⟩ : ZEntry) ∈
      RebuildTimelineFromDB (rebuildRows "u" [examplePost]) ∧
    ∃ post ∈ [examplePost], post.id = (⟨100, "p1"⟩ : ZEntry).member ∧
      (⟨100, "p1"⟩ : ZEntry).score = post.createdAtUnix := by
  have hmem : (⟨100, "p1"⟩ : ZEntry) ∈
      RebuildTimelineFromDB (rebuildRows "u" [examplePost]) := by decide
  exact ⟨hmem,
    (C8_score_is_created_at [] (fun _ => []) [] "p" 0 0 0 [] "u"
      [examplePost]).2.2.2.2.2 _ hmem⟩

/-- Claim C9: DeletePost yields the not-found error when no non-deleted post
with the id exists and the permission-denied error when the caller is not the
author, leaving the post table and the timeline table untouched in both error
cases; only on success does it tombstone exactly the addressed post and purge
exactly the timeline rows referencing it. -/
theorem C9_delete_post (posts : List Post) (rows : List DBTimelineRow)
    (viewerID postID : String) :
    (postGetByID posts postID = none →
      DeletePost posts rows viewerID postID =
        (posts, rows, some "post not found")) ∧
    (∀ post, postGetByID posts postID = some post → post.userID ≠ viewerID →
      DeletePost posts rows viewerID postID =
        (posts, rows, some "permission denied")) ∧
    (∀ post, postGetByID posts postID = some post → post.userID = viewerID →
      (DeletePost posts rows viewerID postID).2.2 = none ∧
      (∀ q ∈ (DeletePost posts rows viewerID postID).1,
        q.id = postID → q.isDeleted = true) ∧
      (∀ q ∈ posts, q.id ≠ postID →
        q ∈ (DeletePost posts rows viewerID postID).1) ∧
      (∀ r, r ∈ (DeletePost posts rows viewerID postID).2.1 ↔
        r ∈ rows ∧ r.postID ≠ postID)) ∧
    (postGetByID posts postID = none ↔
      ∀ q ∈ posts, q.id = postID → q.isDeleted = true) := by
  refine ⟨?_, ?_, ?_, ?_⟩
  · intro h
    unfold DeletePost
    rw [h]
  · intro post hp hperm
    unfold DeletePost
    rw [hp]
    simp only [if_pos hperm]
  · intro post hp hperm
    have hd : DeletePost posts rows viewerID postID =
        (postDelete posts postID, timelineDeleteByPostID rows postID, none) := by
      unfold DeletePost
      rw [hp]
      simp only [hperm, ne_eq, not_true_eq_false, if_false]
    rw [hd]
    refine ⟨rfl, ?_, ?_, ?_⟩
    · intro q hq hqid
      unfold postDelete at hq
      obtain ⟨q0, -, rfl⟩ := List.mem_map.mp hq
      by_cases h0 : q0.id = postID
      · rw [if_pos h0]
      · rw [if_neg h0] at hqid ⊢
        exact absurd hqid h0
    · intro q hq hqid
      unfold postDelete
      refine List.mem_map.mpr ⟨q, hq, ?_⟩
      rw [if_neg hqid]
    · intro r
      unfold timelineDeleteByPostID
      simp [List.mem_filter]
  · unfold postGetByID
    rw [List.find?_eq_none]
    constructor
    · intro hn q hq hid
      have h1 := hn q hq
      by_contra hdel
      rw [Bool.not_eq_true] at hdel
      exact h1 (by simp [hid, hdel])
    · intro hall q hq hcontra
      simp only [Bool.and_eq_true, decide_eq_true_eq, Bool.not_eq_true']
        at hcontra
      have h1 : q.isDeleted = true := hall q hq hcontra.1
      have h2 : q.isDeleted = false := hcontra.2
      rw [h1] at h2
      cases h2

/-- Witness for claim C9 at concrete inputs: deleting an absent id errors with
not-found, a foreign caller errors with permission-denied, and the legitimate
author case succeeds without error. -/
theorem C9_delete_post_witness :
    DeletePost [examplePost] [⟨"f1", "p1"⟩] "a" "zz" =
      ([examplePost], [⟨"f1", "p1"⟩], some "post not found") ∧
    DeletePost [examplePost] [⟨"f1", "p1"⟩] "b" "p1" =
      ([examplePost], [⟨"f1", "p1"⟩], some "permission denied") ∧
    (DeletePost [examplePost] [⟨"f1", "p1"⟩] "a" "p1").2.2 = none := by
  have h := C9_delete_post [examplePost] [⟨"f1", "p1"⟩]
  exact ⟨(h "a" "zz").1 (by decide),
    (h "b" "p1").2.1 examplePost (by decide) (by decide),
    ((h "a" "p1").2.2.1 examplePost (by decide) (by decide)).1⟩

/-- Claim C10: a cursor that fails float parsing (modelled as the absent
cursor value, which also covers the empty cursor) makes GetTimeline behave
exactly as a first-page request with the current Unix time as the exclusive
score bound — the result is identical to that of an explicit cursor equal to
now, and every returned item scores strictly below now; the source has no
error path tied to the cursor. -/
theorem C10_bad_cursor_first_page (tl : List ZEntry) (now : Int) (n : Nat) :
    GetTimeline tl none now n = GetTimeline tl (some now) now n ∧
    ∀ it ∈ (GetTimeline tl none now n).items, it.score < now := by
  have he : GetTimeline tl none now n = GetTimeline tl (some now) now n := rfl
  refine ⟨he, ?_⟩
  intro it hit
  rw [he] at hit
  exact GetTimeline_items_lt it hit

/-- Witness for claim C10 at a concrete input: the single entry below now is
returned with its score below now. -/
theorem C10_bad_cursor_first_page_witness :
    (⟨"x", 1, 1⟩ : TimelineItem) ∈
      (GetTimeline [(⟨1, "x"⟩ : ZEntry)] none 5 2).items ∧
    (⟨"x", 1, 1⟩ : TimelineItem).score < 5 := by
  have hmem : (⟨"x", 1, 1⟩ : TimelineItem) ∈
      (GetTimeline [(⟨1, "x"⟩ : ZEntry)] none 5 2).items := by decide
  exact ⟨hmem, (C10_bad_cursor_first_page [(⟨1, "x"⟩ : ZEntry)] 5 2).2 _ hmem⟩

end FeedSystem
